import Mathlib

/-!
Verification of the seed-selection strategy engine (src/pandemaniac.py).

The engine is embedded shallowly:

* A `Graph` mirrors networkx's adjacency-dict representation (a `nx.Graph`
  built by the external loader): an association list from a node to its
  neighbour list, in deterministic iteration order.
* Centrality scores are exact nonnegative rationals represented as explicit
  numerator/denominator pairs (`Score`), compared by cross-multiplication;
  the Python code uses floats, but every score in one ranking is a small
  integer divided by one common positive constant, so the induced ordering
  is the exact rational one.
* `heapq.nlargest(n, items, key=itemgetter(1))` is documented as equivalent
  to `sorted(items, key, reverse=True)[:n]` with a stable sort; `sortDesc`
  below is that stable descending sort.
* Library primitives that the spec declares external (eigenvector /
  betweenness / Katz / clustering score maps, the approximate vertex cover
  and dominating set, `np.random.choice` samples) enter as oracle data
  (`Ext`) constrained by their documented contracts.  The minimum spanning
  tree is embedded concretely (Kruskal over the edge iteration order with
  all weights equal, as `nx.minimum_spanning_tree` computes it).
* Fallible code (the completion loop's potential IndexError, the
  dominating-set assertion, `np.random.choice`'s ValueError) returns
  `Option`, with `none` for the raised exception.
-/

namespace Pandemaniac

/-- An undirected graph in networkx adjacency order: each entry pairs a node
with its neighbour list.  Node iteration order is the list order. -/
structure Graph where
  adj : List (Nat × List Nat)
  deriving DecidableEq

/-- The node list, in iteration order (`G.nodes()` / `len(G)`). -/
def Graph.nodes (G : Graph) : List Nat := G.adj.map Prod.fst

/-- Neighbour list of a node (`G[u]`); empty when `u` is not a node. -/
def Graph.nbrs (G : Graph) (u : Nat) : List Nat :=
  match G.adj.find? (fun p => p.1 == u) with
  | some p => p.2
  | none => []

/-- Degree of a node: the size of its adjacency entry. -/
def Graph.degree (G : Graph) (u : Nat) : Nat := (G.nbrs u).length

/-- Adjacency test: `v` occurs in `u`'s neighbour list. -/
def Graph.adjacent (G : Graph) (u v : Nat) : Bool := (G.nbrs u).contains v

/-- Well-formedness of a loaded graph: distinct nodes, duplicate-free
neighbour lists over actual nodes, no self-loops, symmetric adjacency. -/
def Graph.WF (G : Graph) : Prop :=
  G.nodes.Nodup ∧
  (∀ p ∈ G.adj, p.2.Nodup ∧ ∀ v ∈ p.2, v ∈ G.nodes ∧ v ≠ p.1) ∧
  (∀ p ∈ G.adj, ∀ v ∈ p.2, G.adjacent v p.1 = true)

instance (G : Graph) : Decidable G.WF := by
  unfold Graph.WF; infer_instance

/-- `G.copy()` followed by `remove_nodes_from(G.nodes() - s)`: keep only the
nodes in `s` (order preserved) and the edges among them. -/
def induced (G : Graph) (s : List Nat) : Graph :=
  ⟨(G.adj.filter (fun p => s.contains p.1)).map
      (fun p => (p.1, p.2.filter (fun v => s.contains v)))⟩

/-- A centrality score: the exact nonnegative rational `num / den`, kept as
an explicit fraction so that the comparisons ranking needs are executable
by cross-multiplication. -/
structure Score where
  num : Nat
  den : Nat
  deriving DecidableEq

instance : LT Score := ⟨fun a b => a.num * b.den < b.num * a.den⟩

instance (a b : Score) : Decidable (a < b) :=
  inferInstanceAs (Decidable (a.num * b.den < b.num * a.den))

instance (n : Nat) : OfNat Score n := ⟨⟨n, 1⟩⟩

/-- Python's stable descending insertion: a later element is placed after
every earlier element whose score is at least as large. -/
def insertDesc (x : Nat × Score) : List (Nat × Score) → List (Nat × Score)
  | [] => [x]
  | y :: ys => if y.2 < x.2 then x :: y :: ys else y :: insertDesc x ys

/-- `sorted(l, key=itemgetter(1), reverse=True)`: stable descending sort
by score. -/
def sortDesc (l : List (Nat × Score)) : List (Nat × Score) :=
  l.foldl (fun acc x => insertDesc x acc) []

/-- `heapq.nlargest(n, l, key=operator.itemgetter(1))`. -/
def nlargestByScore (n : Nat) (l : List (Nat × Score)) : List (Nat × Score) :=
  (sortDesc l).take n

/-- `[i[0] for i in nlargest(n, l.items(), key=itemgetter(1))]`. -/
def topKeys (n : Nat) (l : List (Nat × Score)) : List Nat :=
  (nlargestByScore n l).map Prod.fst

/-- Python's `lst * n`: the list repeated `n` times. -/
def repeatList (l : List Nat) (n : Nat) : List Nat :=
  (List.replicate n l).flatten

/-- `nx.degree_centrality(G)` as an item list in node iteration order: the
score of `v` is the fraction `degree(v) / (n - 1)`, with all-ones on graphs
of at most one node. -/
def degree_centrality (G : Graph) : List (Nat × Score) :=
  if G.nodes.length ≤ 1 then G.nodes.map (fun v => (v, 1))
  else G.nodes.map (fun v => (v, ⟨G.degree v, G.nodes.length - 1⟩))

/-- `degree_centrality_strategy(G, num_iterations, num_seeds)`
(src/pandemaniac.py lines 259-273). -/
def degree_centrality_strategy (G : Graph) (num_iterations num_seeds : Nat) :
    List Nat :=
  repeatList (topKeys num_seeds (degree_centrality G)) num_iterations

/-- A ranker over an externally supplied score item list; the bodies of the
eigenvector / Katz / betweenness / clustering strategies share this shape. -/
def rankerSchedule (scores : List (Nat × Score)) (num_iterations num_seeds : Nat) :
    List Nat :=
  repeatList (topKeys num_seeds scores) num_iterations

/-- `eigenvector_centrality_strategy` (lines 227-241); the
`nx.eigenvector_centrality(G)` item list is the oracle argument. -/
def eigenvector_centrality_strategy (scores : List (Nat × Score))
    (num_iterations num_seeds : Nat) : List Nat :=
  rankerSchedule scores num_iterations num_seeds

/-- `katz_centrality_strategy` (lines 243-257); the `nx.katz_centrality(G)`
item list is the oracle argument. -/
def katz_centrality_strategy (scores : List (Nat × Score))
    (num_iterations num_seeds : Nat) : List Nat :=
  rankerSchedule scores num_iterations num_seeds

/-- `betweenness_centrality_strategy` (lines 295-309); the
`nx.betweenness_centrality(G)` item list is the oracle argument. -/
def betweenness_centrality_strategy (scores : List (Nat × Score))
    (num_iterations num_seeds : Nat) : List Nat :=
  rankerSchedule scores num_iterations num_seeds

/-- `clustering_coefficient_strategy` (lines 211-225); the `nx.clustering(G)`
item list is the oracle argument. -/
def clustering_coefficient_strategy (scores : List (Nat × Score))
    (num_iterations num_seeds : Nat) : List Nat :=
  rankerSchedule scores num_iterations num_seeds

/-- The completion loop shared by the three extractor strategies
(lines 132-136):
`while len(node_keys) != num_seeds: if fb[i] not in node_keys: append; i += 1`.
`none` models the IndexError raised when the fallback list is exhausted. -/
def completeLoop (num_seeds : Nat) : List Nat → List Nat → Option (List Nat)
  | fb, acc =>
    if acc.length = num_seeds then some acc
    else
      match fb with
      | [] => none
      | f :: fs =>
          completeLoop num_seeds fs (if acc.contains f then acc else acc ++ [f])

/-- `G.edges()` iteration order: for each node in order, its neighbours in
adjacency order, reporting each edge once at the endpoint seen first. -/
def edgeListAux : List Nat → List (Nat × List Nat) → List (Nat × Nat)
  | _, [] => []
  | seen, (u, nbrs) :: rest =>
      ((nbrs.filter (fun v => !(seen.contains v))).map (fun v => (u, v))) ++
        edgeListAux (u :: seen) rest

/-- The edge list of a graph in `G.edges()` order. -/
def edgeList (G : Graph) : List (Nat × Nat) := edgeListAux [] G.adj

/-- Kruskal over the edge list with all weights equal (the stable sort leaves
the edge iteration order unchanged): keep an edge when its endpoints lie in
different components, merging them.  This is the edge set of
`nx.minimum_spanning_tree(G)` on an unweighted graph. -/
def kruskalAux (comps : List (List Nat)) : List (Nat × Nat) → List (Nat × Nat)
  | [] => []
  | (u, v) :: rest =>
    match comps.find? (fun c => c.contains u) with
    | none => kruskalAux comps rest
    | some cu =>
      if cu.contains v then kruskalAux comps rest
      else
        match comps.find? (fun c => c.contains v) with
        | none => kruskalAux comps rest
        | some cv =>
            (u, v) ::
              kruskalAux
                ((cu ++ cv) ::
                  comps.filter (fun c => !(c.contains u) && !(c.contains v)))
                rest

/-- The spanning-forest edges chosen by `nx.minimum_spanning_tree(G)`. -/
def kruskalEdges (G : Graph) : List (Nat × Nat) :=
  kruskalAux (G.nodes.map (fun v => [v])) (edgeList G)

/-- `nx.minimum_spanning_tree(G)` as a graph: all of `G`'s nodes in order,
with the forest edges only (neighbour order follows edge insertion). -/
def mstGraph (G : Graph) : Graph :=
  ⟨G.nodes.map (fun u =>
      (u, (kruskalEdges G).filterMap (fun e =>
            if e.1 == u then some e.2
            else if e.2 == u then some e.1 else none)))⟩

/-- `vertex_cover_strategy(G, num_iterations, num_seeds)` (lines 97-138).
The approximate vertex cover `min_weighted_vertex_cover(G)` is external; its
result (a set of nodes) is the `vc` argument. -/
def vertex_cover_strategy (G : Graph) (vc : List Nat)
    (num_iterations num_seeds : Nat) : Option (List Nat) :=
  let subgraph := induced G vc
  let number_of_nodes := if vc.length < num_seeds then vc.length else num_seeds
  let node_keys := topKeys number_of_nodes (degree_centrality subgraph)
  let nodes_top_degrees := degree_centrality_strategy G 1 num_seeds
  (completeLoop num_seeds nodes_top_degrees node_keys).map
    (fun r => repeatList r num_iterations)

/-- `dominating_set_strategy(G, num_iterations, num_seeds)` (lines 140-178).
The greedy dominating set `nx.dominating_set(G)` is external; its result is
the `ds` argument.  `none` models the failure of the assertion
`assert(len(G.nodes()) > len(subgraph.nodes()))` at line 162. -/
def dominating_set_strategy (G : Graph) (ds : List Nat)
    (num_iterations num_seeds : Nat) : Option (List Nat) :=
  let subgraph := induced G ds
  if G.nodes.length > subgraph.nodes.length then
    let number_of_nodes := if ds.length < num_seeds then ds.length else num_seeds
    let node_keys := topKeys number_of_nodes (degree_centrality subgraph)
    let nodes_top_degrees := degree_centrality_strategy G 1 num_seeds
    (completeLoop num_seeds nodes_top_degrees node_keys).map
      (fun r => repeatList r num_iterations)
  else none

/-- `mst_strategy(G, num_iterations, num_seeds)` (lines 180-209).  Note that
`nx.degree_centrality(mst)` at line 197 ranks by degree within the spanning
tree itself. -/
def mst_strategy (G : Graph) (num_iterations num_seeds : Nat) :
    Option (List Nat) :=
  let mst := mstGraph G
  let number_of_nodes :=
    if mst.nodes.length < num_seeds then mst.nodes.length else num_seeds
  let node_keys := topKeys number_of_nodes (degree_centrality mst)
  let nodes_top_degrees := degree_centrality_strategy G 1 num_seeds
  (completeLoop num_seeds nodes_top_degrees node_keys).map
    (fun r => repeatList r num_iterations)

/-- Modelled from the spec: the MST variant as §4.2 words it — "the induced
subgraph (extracted nodes + edges between them) is ranked by degree
centrality" on the spanning tree's node set.  Defined only to be compared
with `mst_strategy`, which ranks by the tree's own edges. -/
def mst_strategy_specInduced (G : Graph) (num_iterations num_seeds : Nat) :
    Option (List Nat) :=
  let sub := induced G (mstGraph G).nodes
  let number_of_nodes :=
    if sub.nodes.length < num_seeds then sub.nodes.length else num_seeds
  let node_keys := topKeys number_of_nodes (degree_centrality sub)
  let nodes_top_degrees := degree_centrality_strategy G 1 num_seeds
  (completeLoop num_seeds nodes_top_degrees node_keys).map
    (fun r => repeatList r num_iterations)

/-- `random_strategy(G, num_iterations, num_seeds)` (lines 311-328).  The
per-iteration draw `np.random.choice(len(G), num_seeds, replace=False)` is
external; iteration `i`'s draw is `samples i`.  `none` models the ValueError
`choice` raises when the sample is larger than the population (hit at the
first iteration, so only when there is at least one). -/
def random_strategy (G : Graph) (samples : Nat → List Nat)
    (num_iterations num_seeds : Nat) : Option (List Nat) :=
  if 0 < num_iterations ∧ G.nodes.length < num_seeds then none
  else some ((List.range num_iterations).map samples).flatten

/-- The externally computed data a run consumes: score item lists from the
centrality primitives, the extracted sets, and the random draws. -/
structure Ext where
  vc : List Nat
  ds : List Nat
  eig : List (Nat × Score)
  bet : List (Nat × Score)
  katz : List (Nat × Score)
  clus : List (Nat × Score)
  samples : Nat → List Nat

/-- The documented contracts of the external primitives: the extracted
results are node sets of `G`, and every score dict has exactly the graph's
nodes as keys, in node iteration order. -/
def Ext.Valid (ext : Ext) (G : Graph) : Prop :=
  ext.vc.Nodup ∧ (∀ x ∈ ext.vc, x ∈ G.nodes) ∧
  ext.ds.Nodup ∧ (∀ x ∈ ext.ds, x ∈ G.nodes) ∧
  ext.eig.map Prod.fst = G.nodes ∧
  ext.bet.map Prod.fst = G.nodes ∧
  ext.katz.map Prod.fst = G.nodes ∧
  ext.clus.map Prod.fst = G.nodes

instance (ext : Ext) (G : Graph) : Decidable (ext.Valid G) := by
  unfold Ext.Valid; infer_instance

/-- The contract of `np.random.choice(n, ns, replace=False)` for the draws of
the first `it` iterations: `ns` distinct indices below `n`. -/
def SamplesOK (ext : Ext) (it ns n : Nat) : Prop :=
  ∀ i < it, (ext.samples i).length = ns ∧ (ext.samples i).Nodup ∧
    ∀ x ∈ ext.samples i, x < n

instance (ext : Ext) (it ns n : Nat) : Decidable (SamplesOK ext it ns n) := by
  unfold SamplesOK; infer_instance

/-- The nine strategy tags of the dispatch in `main` (lines 20-41). -/
inductive Tag | r | d | e | b | c | k | m | s | v
  deriving DecidableEq

/-- The dispatch of `main`: run one strategy on the graph. -/
def runStrategy (t : Tag) (G : Graph) (ext : Ext)
    (num_iterations num_seeds : Nat) : Option (List Nat) :=
  match t with
  | .r => random_strategy G ext.samples num_iterations num_seeds
  | .d => some (degree_centrality_strategy G num_iterations num_seeds)
  | .e => some (eigenvector_centrality_strategy ext.eig num_iterations num_seeds)
  | .b => some (betweenness_centrality_strategy ext.bet num_iterations num_seeds)
  | .c => some (clustering_coefficient_strategy ext.clus num_iterations num_seeds)
  | .k => some (katz_centrality_strategy ext.katz num_iterations num_seeds)
  | .m => mst_strategy G num_iterations num_seeds
  | .s => dominating_set_strategy G ext.ds num_iterations num_seeds
  | .v => vertex_cover_strategy G ext.vc num_iterations num_seeds

/-- The candidate list an extractor strategy feeds to the completion loop
(the `node_keys` value before the `while`), for the three extractor tags. -/
def extractRanked (t : Tag) (G : Graph) (ext : Ext) (num_seeds : Nat) :
    List Nat :=
  match t with
  | .v =>
      topKeys (if ext.vc.length < num_seeds then ext.vc.length else num_seeds)
        (degree_centrality (induced G ext.vc))
  | .s =>
      topKeys (if ext.ds.length < num_seeds then ext.ds.length else num_seeds)
        (degree_centrality (induced G ext.ds))
  | .m =>
      topKeys
        (if (mstGraph G).nodes.length < num_seeds
         then (mstGraph G).nodes.length else num_seeds)
        (degree_centrality (mstGraph G))
  | _ => []

/-! ### Concrete instances used to witness the theorems below -/

/-- A single isolated node. -/
def G1 : Graph := ⟨[(0, [])]⟩

/-- External data for `G1`. -/
def ext1 : Ext := ⟨[0], [0], [(0, 1)], [(0, 1)], [(0, 1)], [(0, 1)], fun _ => [0]⟩

/-- A single edge 0—1. -/
def G2 : Graph := ⟨[(0, [1]), (1, [0])]⟩

/-- External data for `G2`: vertex cover `{0}`, dominating set `{0}`, score
dicts over both nodes, and every random draw equal to `[0]`. -/
def ext2 : Ext :=
  ⟨[0], [0], [(0, 1), (1, 1)], [(0, 1), (1, 1)], [(0, 1), (1, 1)],
    [(0, 1), (1, 1)], fun _ => [0]⟩

/-- The path 0—1—2. -/
def P3 : Graph := ⟨[(0, [1]), (1, [0, 2]), (2, [1])]⟩

/-- External data for `P3`: vertex cover `{1}` (its minimum), dominating set
`{1}`, score dicts over the three nodes. -/
def extP3 : Ext :=
  ⟨[1], [1], [(0, 1), (1, 2), (2, 1)], [(0, 1), (1, 2), (2, 1)],
    [(0, 1), (1, 2), (2, 1)], [(0, 1), (1, 2), (2, 1)], fun _ => [0, 1]⟩

/-- The complete graph on four nodes, listed in the scrambled iteration
order 2, 0, 3, 1 so that a tie-break by node identifier would differ from a
tie-break by iteration order. -/
def K4S : Graph := ⟨[(2, [0, 3, 1]), (0, [2, 3, 1]), (3, [2, 0, 1]), (1, [2, 0, 3])]⟩

/-- Four nodes with edges 0—1, 0—2, 0—3 and 2—3.  Its minimum spanning tree
(Kruskal in edge order) is the star at 0, whose degree order 0, 1, 2, 3
differs from the whole graph's degree order 0, 2, 3, 1. -/
def G4 : Graph := ⟨[(0, [1, 2, 3]), (1, [0]), (2, [0, 3]), (3, [0, 2])]⟩

/-- Two isolated nodes: the edgeless case whose only dominating set is the
whole node set. -/
def Gless : Graph := ⟨[(0, []), (1, [])]⟩

/-- External data for `Gless`: the greedy dominating set is all nodes. -/
def extLess : Ext :=
  ⟨[0, 1], [0, 1], [(0, 1), (1, 1)], [(0, 1), (1, 1)], [(0, 1), (1, 1)],
    [(0, 1), (1, 1)], fun _ => [0]⟩

/-- External data with no content, for strategies that consult none of it. -/
def extEmpty : Ext := ⟨[], [], [], [], [], [], fun _ => []⟩

/-! ### Lemmas about the stable descending sort and top-k selection -/

theorem insertDesc_perm (x : Nat × Score) (l : List (Nat × Score)) :
    (insertDesc x l).Perm (x :: l) := by
  induction l with
  | nil => exact List.Perm.refl _
  | cons y ys ih =>
    simp only [insertDesc]
    split
    · exact List.Perm.refl _
    · exact (ih.cons y).trans (List.Perm.swap x y ys)

theorem foldl_insertDesc_perm (l acc : List (Nat × Score)) :
    (List.foldl (fun a x => insertDesc x a) acc l).Perm (acc ++ l) := by
  induction l generalizing acc with
  | nil => simp
  | cons x xs ih =>
    have h1 := ih (insertDesc x acc)
    have h2 : (insertDesc x acc ++ xs).Perm ((x :: acc) ++ xs) :=
      (insertDesc_perm x acc).append_right xs
    have h3 : ((x :: acc) ++ xs).Perm (acc ++ x :: xs) := by
      simpa using List.perm_middle.symm
    exact (h1.trans h2).trans h3

theorem sortDesc_perm (l : List (Nat × Score)) : (sortDesc l).Perm l := by
  simpa using foldl_insertDesc_perm l []

theorem sortDesc_length (l : List (Nat × Score)) :
    (sortDesc l).length = l.length :=
  (sortDesc_perm l).length_eq

theorem topKeys_length (n : Nat) (l : List (Nat × Score)) :
    (topKeys n l).length = min n l.length := by
  simp [topKeys, nlargestByScore, sortDesc_length]

theorem topKeys_sublist_keys (n : Nat) (l : List (Nat × Score)) :
    (topKeys n l).Sublist ((sortDesc l).map Prod.fst) :=
  ((sortDesc l).take_sublist n).map Prod.fst

theorem topKeys_nodup (n : Nat) (l : List (Nat × Score))
    (h : (l.map Prod.fst).Nodup) : (topKeys n l).Nodup := by
  have hperm : ((sortDesc l).map Prod.fst).Perm (l.map Prod.fst) :=
    (sortDesc_perm l).map Prod.fst
  exact (topKeys_sublist_keys n l).nodup (hperm.nodup_iff.mpr h)

theorem topKeys_subset (n : Nat) (l : List (Nat × Score)) :
    ∀ x ∈ topKeys n l, x ∈ l.map Prod.fst := by
  intro x hx
  have hperm : ((sortDesc l).map Prod.fst).Perm (l.map Prod.fst) :=
    (sortDesc_perm l).map Prod.fst
  exact hperm.mem_iff.mp ((topKeys_sublist_keys n l).subset hx)

/-! ### Lemmas about replication -/

theorem repeatList_length (l : List Nat) (n : Nat) :
    (repeatList l n).length = n * l.length := by
  induction n with
  | zero => simp [repeatList]
  | succ m ih =>
    simp only [repeatList, List.replicate_succ, List.flatten_cons,
      List.length_append] at ih ⊢
    rw [ih]; ring

theorem repeatList_one (l : List Nat) : repeatList l 1 = l := by
  simp [repeatList]

/-! ### Lemmas about the score dictionaries and derived node lists -/

theorem degree_centrality_keys (G : Graph) :
    (degree_centrality G).map Prod.fst = G.nodes := by
  unfold degree_centrality
  split <;> simp [List.map_map, Function.comp_def]

theorem degree_centrality_length (G : Graph) :
    (degree_centrality G).length = G.nodes.length := by
  have := congrArg List.length (degree_centrality_keys G)
  simpa using this

theorem induced_nodes (G : Graph) (s : List Nat) :
    (induced G s).nodes = G.nodes.filter (fun v => s.contains v) := by
  show ((G.adj.filter _).map _).map Prod.fst
      = (G.adj.map Prod.fst).filter (fun v => s.contains v)
  induction G.adj with
  | nil => rfl
  | cons p rest ih =>
    by_cases hp : s.contains p.1
    · simp only [List.filter_cons, List.map_cons, hp]
      simpa using ih
    · simp only [List.filter_cons, List.map_cons, Bool.not_eq_true] at hp ⊢
      rw [hp]
      simpa [hp] using ih

theorem mstGraph_nodes (G : Graph) : (mstGraph G).nodes = G.nodes := by
  simp [mstGraph, Graph.nodes, List.map_map, Function.comp]

/-! ### Lemmas about the completion loop -/

theorem completeLoop_nil (k : Nat) (acc : List Nat) :
    completeLoop k [] acc = if acc.length = k then some acc else none := by
  rfl

theorem completeLoop_cons (k : Nat) (f : Nat) (fs acc : List Nat) :
    completeLoop k (f :: fs) acc =
      if acc.length = k then some acc
      else completeLoop k fs (if acc.contains f then acc else acc ++ [f]) := by
  rfl

/-- The loop only ever returns a list of the requested width (the assertion
`assert(len(node_keys) == num_seeds)` after the loop always passes). -/
theorem completeLoop_some_length (k : Nat) (fb : List Nat) :
    ∀ acc r : List Nat, completeLoop k fb acc = some r → r.length = k := by
  induction fb with
  | nil =>
    intro acc r h
    rw [completeLoop_nil] at h
    split at h
    · cases h; assumption
    · cases h
  | cons f fs ih =>
    intro acc r h
    rw [completeLoop_cons] at h
    split at h
    · cases h; assumption
    · exact ih _ r h

/-- Characterization of a successful completion: the result is the initial
candidates followed by the first `k - |acc|` fallback nodes not already
present. -/
theorem completeLoop_some_eq (k : Nat) (fb : List Nat) (hfb : fb.Nodup) :
    ∀ acc r : List Nat, acc.length ≤ k → completeLoop k fb acc = some r →
      r = acc ++ (fb.filter (fun x => !(acc.contains x))).take (k - acc.length) := by
  induction fb with
  | nil =>
    intro acc r _ h
    rw [completeLoop_nil] at h
    split at h
    · cases h; simp
    · cases h
  | cons f fs ih =>
    intro acc r hacc h
    have hfs : fs.Nodup := hfb.of_cons
    have hfmem : f ∉ fs := by
      intro hm; exact (List.nodup_cons.mp hfb).1 hm
    rw [completeLoop_cons] at h
    split at h
    · cases h
      simp [*]
    · rename_i hne
      have hlt : acc.length < k := lt_of_le_of_ne hacc hne
      by_cases hc : acc.contains f
      · have hcp : f ∈ acc := by simpa using hc
        rw [if_pos hc] at h
        have := ih hfs acc r hacc h
        simpa [List.filter_cons, hcp] using this
      · have hcp : f ∉ acc := by simpa using hc
        rw [if_neg hc] at h
        have hacc2 : (acc ++ [f]).length ≤ k := by
          simp only [List.length_append, List.length_cons, List.length_nil]
          omega
        have hr := ih hfs (acc ++ [f]) r hacc2 h
        have hfilter :
            fs.filter (fun x => !((acc ++ [f]).contains x))
              = fs.filter (fun x => !(acc.contains x)) := by
          apply List.filter_congr
          intro x hx
          have hxf : x ≠ f := by
            intro hxeq; exact hfmem (hxeq ▸ hx)
          simp [hxf]
        have harith : k - acc.length = (k - (acc ++ [f]).length) + 1 := by
          simp only [List.length_append, List.length_cons, List.length_nil]
          omega
        rw [hr, hfilter]
        simp only [List.filter_cons, harith]
        simp [hcp, List.append_assoc]

theorem filter_fresh_cons_mem (f : Nat) (fs acc : List Nat) (h : f ∈ acc) :
    (f :: fs).filter (fun x => !(acc.contains x))
      = fs.filter (fun x => !(acc.contains x)) := by
  simp [List.filter_cons, h]

theorem filter_fresh_cons_not_mem (f : Nat) (fs acc : List Nat) (h : f ∉ acc) :
    (f :: fs).filter (fun x => !(acc.contains x))
      = f :: fs.filter (fun x => !(acc.contains x)) := by
  simp [List.filter_cons, h]

/-- A successful completion is duplicate-free when the inputs are. -/
theorem completeLoop_some_nodup (k : Nat) (fb acc r : List Nat)
    (hfb : fb.Nodup) (haccN : acc.Nodup) (hacc : acc.length ≤ k)
    (h : completeLoop k fb acc = some r) : r.Nodup := by
  rw [completeLoop_some_eq k fb hfb acc r hacc h]
  apply List.Nodup.append haccN
  · have h1 : ((fb.filter (fun x => !(acc.contains x))).take (k - acc.length)).Sublist
        (fb.filter (fun x => !(acc.contains x))) := List.take_sublist _ _
    exact (h1.trans (List.filter_sublist fb)).nodup hfb
  · intro a ha hsuffix
    have := ((fb.filter _).take_sublist _).subset hsuffix
    have hmem := List.of_mem_filter this
    simp only [Bool.not_eq_true'] at hmem
    have : a ∉ acc := by simpa using hmem
    exact this ha

/-- The loop succeeds when the initial candidates together with the fresh
fallback nodes supply at least `k` entries. -/
theorem completeLoop_isSome (k : Nat) (fb : List Nat) (hfb : fb.Nodup) :
    ∀ acc : List Nat, acc.length ≤ k →
      k ≤ acc.length + (fb.filter (fun x => !(acc.contains x))).length →
      ∃ r, completeLoop k fb acc = some r := by
  induction fb with
  | nil =>
    intro acc hacc hle
    simp only [List.filter_nil, List.length_nil, Nat.add_zero] at hle
    have : acc.length = k := le_antisymm hacc hle
    exact ⟨acc, by rw [completeLoop_nil, if_pos this]⟩
  | cons f fs ih =>
    intro acc hacc hle
    have hfs : fs.Nodup := hfb.of_cons
    have hfmem : f ∉ fs := by
      intro hm; exact (List.nodup_cons.mp hfb).1 hm
    by_cases hk : acc.length = k
    · exact ⟨acc, by rw [completeLoop_cons, if_pos hk]⟩
    · have hlt : acc.length < k := lt_of_le_of_ne hacc hk
      by_cases hc : acc.contains f
      · have hcp : f ∈ acc := by simpa using hc
        have hle2 : k ≤ acc.length + (fs.filter (fun x => !(acc.contains x))).length := by
          simpa [List.filter_cons, hcp] using hle
        obtain ⟨r, hr⟩ := ih hfs acc hacc hle2
        exact ⟨r, by rw [completeLoop_cons, if_neg hk, if_pos hc]; exact hr⟩
      · have hcp : f ∉ acc := by simpa using hc
        have hfilter :
            fs.filter (fun x => !((acc ++ [f]).contains x))
              = fs.filter (fun x => !(acc.contains x)) := by
          apply List.filter_congr
          intro x hx
          have hxf : x ≠ f := by
            intro hxeq; exact hfmem (hxeq ▸ hx)
          simp [hxf]
        have hacc2 : (acc ++ [f]).length ≤ k := by
          simp only [List.length_append, List.length_cons, List.length_nil]
          omega
        have hle2 : k ≤ (acc ++ [f]).length +
            (fs.filter (fun x => !((acc ++ [f]).contains x))).length := by
          rw [hfilter]
          rw [filter_fresh_cons_not_mem f fs acc hcp] at hle
          simp only [List.length_cons, List.length_append, List.length_nil] at hle ⊢
          omega
        obtain ⟨r, hr⟩ := ih hfs (acc ++ [f]) hacc2 hle2
        exact ⟨r, by rw [completeLoop_cons, if_neg hk, if_neg hc]; exact hr⟩

/-- The loop raises (IndexError) when even all fresh fallback nodes cannot
reach `k` entries. -/
theorem completeLoop_none (k : Nat) (fb : List Nat) :
    ∀ acc : List Nat,
      acc.length + (fb.filter (fun x => !(acc.contains x))).length < k →
      completeLoop k fb acc = none := by
  induction fb with
  | nil =>
    intro acc hlt
    simp only [List.filter_nil, List.length_nil, Nat.add_zero] at hlt
    rw [completeLoop_nil, if_neg (by omega)]
  | cons f fs ih =>
    intro acc hlt
    have hne : acc.length ≠ k := by
      have : acc.length ≤ acc.length + (((f :: fs).filter
        (fun x => !(acc.contains x))).length) := Nat.le_add_right _ _
      omega
    rw [completeLoop_cons, if_neg hne]
    by_cases hc : acc.contains f
    · have hcp : f ∈ acc := by simpa using hc
      rw [if_pos hc]
      apply ih
      rw [filter_fresh_cons_mem f fs acc hcp] at hlt
      exact hlt
    · have hcp : f ∉ acc := by simpa using hc
      rw [if_neg hc]
      apply ih
      have hmono : (fs.filter (fun x => !((acc ++ [f]).contains x))).length
          ≤ (fs.filter (fun x => !(acc.contains x))).length := by
        apply List.Sublist.length_le
        apply List.monotone_filter_right
        intro a ha
        have ha2 : a ∉ acc ++ [f] := by simpa using ha
        have ha3 : a ∉ acc := fun hm => ha2 (List.mem_append_left _ hm)
        simpa using ha3
      rw [filter_fresh_cons_not_mem f fs acc hcp] at hlt
      simp only [List.length_cons, List.length_append, List.length_nil] at hlt ⊢
      omega

/-! ### Helper facts about the fallback list and candidate lists -/

theorem nodup_subset_length_le (l l' : List Nat) (h : l.Nodup)
    (hs : ∀ x ∈ l, x ∈ l') : l.length ≤ l'.length :=
  (List.subperm_of_subset h hs).length_le

theorem fallback_length (G : Graph) (ns : Nat) (h : ns ≤ G.nodes.length) :
    (degree_centrality_strategy G 1 ns).length = ns := by
  rw [degree_centrality_strategy, repeatList_one, topKeys_length,
    degree_centrality_length]
  exact Nat.min_eq_left h

theorem fallback_nodup (G : Graph) (ns : Nat) (hwf : G.WF) :
    (degree_centrality_strategy G 1 ns).Nodup := by
  rw [degree_centrality_strategy, repeatList_one]
  exact topKeys_nodup _ _ (by rw [degree_centrality_keys]; exact hwf.1)

theorem fallback_subset (G : Graph) (ns : Nat) :
    ∀ x ∈ degree_centrality_strategy G 1 ns, x ∈ G.nodes := by
  rw [degree_centrality_strategy, repeatList_one]
  intro x hx
  have := topKeys_subset _ _ x hx
  rwa [degree_centrality_keys] at this

theorem extractRanked_nodup (t : Tag) (G : Graph) (ext : Ext) (ns : Nat)
    (hwf : G.WF) : (extractRanked t G ext ns).Nodup := by
  have hind : ∀ s : List Nat,
      ((degree_centrality (induced G s)).map Prod.fst).Nodup := by
    intro s
    rw [degree_centrality_keys, induced_nodes]
    exact hwf.1.filter _
  cases t with
  | v => exact topKeys_nodup _ _ (hind ext.vc)
  | s => exact topKeys_nodup _ _ (hind ext.ds)
  | m =>
    apply topKeys_nodup
    rw [degree_centrality_keys, mstGraph_nodes]
    exact hwf.1
  | r => exact List.nodup_nil
  | d => exact List.nodup_nil
  | e => exact List.nodup_nil
  | b => exact List.nodup_nil
  | c => exact List.nodup_nil
  | k => exact List.nodup_nil

theorem extractRanked_subset (t : Tag) (G : Graph) (ext : Ext) (ns : Nat) :
    ∀ x ∈ extractRanked t G ext ns, x ∈ G.nodes := by
  have hind : ∀ (s : List Nat) (m : Nat), ∀ x ∈ topKeys m (degree_centrality (induced G s)),
      x ∈ G.nodes := by
    intro s m x hx
    have := topKeys_subset _ _ x hx
    rw [degree_centrality_keys, induced_nodes] at this
    exact (List.mem_filter.mp this).1
  cases t with
  | v => exact hind ext.vc _
  | s => exact hind ext.ds _
  | m =>
    intro x hx
    have := topKeys_subset _ _ x hx
    rwa [degree_centrality_keys, mstGraph_nodes] at this
  | r => intro x hx; cases hx
  | d => intro x hx; cases hx
  | e => intro x hx; cases hx
  | b => intro x hx; cases hx
  | c => intro x hx; cases hx
  | k => intro x hx; cases hx

theorem extractRanked_length_le (t : Tag) (G : Graph) (ext : Ext) (ns : Nat) :
    (extractRanked t G ext ns).length ≤ ns := by
  have hmin : ∀ (m : Nat) (l : List (Nat × Score)), m ≤ ns →
      (topKeys m l).length ≤ ns := by
    intro m l hm
    rw [topKeys_length]
    exact le_trans (Nat.min_le_left _ _) hm
  cases t with
  | v => exact hmin _ _ (by split <;> omega)
  | s => exact hmin _ _ (by split <;> omega)
  | m => exact hmin _ _ (by split <;> omega)
  | r => simp [extractRanked]
  | d => simp [extractRanked]
  | e => simp [extractRanked]
  | b => simp [extractRanked]
  | c => simp [extractRanked]
  | k => simp [extractRanked]

/-- On a graph with at least `ns` nodes, completing any duplicate-free
candidate list drawn from the graph succeeds. -/
theorem extractor_complete_isSome (G : Graph) (p : List Nat) (ns : Nat)
    (hwf : G.WF) (hpl : p.length ≤ ns) (hn : ns ≤ G.nodes.length) :
    ∃ r, completeLoop ns (degree_centrality_strategy G 1 ns) p = some r := by
  apply completeLoop_isSome ns _ (fallback_nodup G ns hwf) p hpl
  have hfbl : (degree_centrality_strategy G 1 ns).length = ns :=
    fallback_length G ns hn
  have hsplit :
      (degree_centrality_strategy G 1 ns).length =
        ((degree_centrality_strategy G 1 ns).filter (fun x => p.contains x)).length +
        ((degree_centrality_strategy G 1 ns).filter (fun x => !(p.contains x))).length :=
    List.length_eq_length_filter_add _
  have h1 : ((degree_centrality_strategy G 1 ns).filter
      (fun x => p.contains x)).Nodup :=
    (List.filter_sublist _).nodup (fallback_nodup G ns hwf)
  have h2 : ∀ x ∈ (degree_centrality_strategy G 1 ns).filter
      (fun x => p.contains x), x ∈ p := by
    intro x hx
    have := List.of_mem_filter hx
    simpa using this
  have h3 := nodup_subset_length_le _ _ h1 h2
  omega

/-! ### Ranker and replication facts -/

theorem rankerSchedule_length (scores : List (Nat × Score)) (it ns : Nat) :
    (rankerSchedule scores it ns).length = it * min ns scores.length := by
  rw [rankerSchedule, repeatList_length, topKeys_length]

theorem repeatList_succ (l : List Nat) (n : Nat) :
    repeatList l (n + 1) = l ++ repeatList l n := by
  simp [repeatList, List.replicate_succ]

theorem repeatList_blocks (l : List Nat) (n : Nat) :
    ∀ i < n, ((repeatList l n).drop (i * l.length)).take l.length = l := by
  induction n with
  | zero => intro i hi; omega
  | succ m ih =>
    intro i hi
    cases i with
    | zero =>
      rw [repeatList_succ]
      simp only [Nat.zero_mul, List.drop_zero]
      exact List.take_left l (repeatList l m)
    | succ j =>
      have hj : j < m := by omega
      rw [repeatList_succ, Nat.succ_mul, Nat.add_comm (j * l.length) l.length,
        List.drop_append (j * l.length)]
      exact ih j hj

theorem flatten_length_uniform (L : List (List Nat)) (ns : Nat)
    (h : ∀ l ∈ L, l.length = ns) : L.flatten.length = L.length * ns := by
  induction L with
  | nil => simp
  | cons x xs ih =>
    have hx := h x (List.mem_cons_self x xs)
    have hxs := ih (fun l hl => h l (List.mem_cons_of_mem x hl))
    simp only [List.flatten_cons, List.length_append, List.length_cons, hx, hxs]
    ring

theorem flatten_map_blocks (f : Nat → List Nat) (it ns : Nat)
    (h : ∀ i < it, (f i).length = ns) :
    ∀ i < it, (((List.range it).map f).flatten.drop (i * ns)).take ns = f i := by
  induction it with
  | zero => intro i hi; omega
  | succ m ih =>
    have hm : ∀ i < m, (f i).length = ns := fun i hi => h i (by omega)
    have hXlen : ((List.range m).map f).flatten.length = m * ns := by
      rw [flatten_length_uniform _ ns]
      · simp
      · intro l hl
        obtain ⟨j, hj, rfl⟩ := List.mem_map.mp hl
        exact hm j (List.mem_range.mp hj)
    intro i hi
    rw [List.range_succ, List.map_append, List.flatten_append]
    by_cases him : i < m
    · rw [List.drop_append_eq_append_drop]
      have hle : ns ≤ (((List.range m).map f).flatten.drop (i * ns)).length := by
        rw [List.length_drop, hXlen]
        have h2 : i * ns + ns ≤ m * ns := by
          have h3 : (i + 1) * ns ≤ m * ns :=
            Nat.mul_le_mul_right ns (Nat.succ_le_of_lt him)
          calc i * ns + ns = (i + 1) * ns := by ring
            _ ≤ m * ns := h3
        omega
      rw [List.take_append_of_le_length hle]
      exact ih hm i him
    · have hieq : i = m := by omega
      subst hieq
      rw [← hXlen, List.drop_left]
      simp only [List.map_cons, List.map_nil, List.flatten_cons,
        List.flatten_nil, List.append_nil]
      rw [← h i (by omega)]
      exact List.take_length _

/-! ## The claims -/

/-- **C1.**  For every strategy tag among the nine supported ones, and every
graph with at least `k` nodes, the list returned by the strategy function
(the SeedSchedule) has length exactly `k * num_iterations`. -/
theorem seedSchedule_length (t : Tag) (G : Graph) (ext : Ext) (it ns : Nat)
    (hwf : G.WF) (hval : ext.Valid G)
    (hsam : SamplesOK ext it ns G.nodes.length)
    (hn : ns ≤ G.nodes.length) (s : List Nat)
    (h : runStrategy t G ext it ns = some s) : s.length = ns * it := by
  obtain ⟨hvcN, hvcS, hdsN, hdsS, heig, hbet, hkatz, hclus⟩ := hval
  have hranker : ∀ scores : List (Nat × Score),
      scores.map Prod.fst = G.nodes →
      (rankerSchedule scores it ns).length = ns * it := by
    intro scores hkeys
    have hlen : scores.length = G.nodes.length := by
      have := congrArg List.length hkeys
      simpa using this
    rw [rankerSchedule_length, hlen, Nat.min_eq_left hn, Nat.mul_comm]
  cases t with
  | d =>
    simp only [runStrategy, Option.some.injEq] at h
    subst h
    exact hranker (degree_centrality G) (degree_centrality_keys G)
  | e =>
    simp only [runStrategy, eigenvector_centrality_strategy,
      Option.some.injEq] at h
    subst h
    exact hranker ext.eig heig
  | b =>
    simp only [runStrategy, betweenness_centrality_strategy,
      Option.some.injEq] at h
    subst h
    exact hranker ext.bet hbet
  | k =>
    simp only [runStrategy, katz_centrality_strategy, Option.some.injEq] at h
    subst h
    exact hranker ext.katz hkatz
  | c =>
    simp only [runStrategy, clustering_coefficient_strategy,
      Option.some.injEq] at h
    subst h
    exact hranker ext.clus hclus
  | v =>
    simp only [runStrategy, vertex_cover_strategy, Option.map_eq_some'] at h
    obtain ⟨r, hr, rfl⟩ := h
    rw [repeatList_length, completeLoop_some_length ns _ _ r hr, Nat.mul_comm]
  | s =>
    simp only [runStrategy, dominating_set_strategy] at h
    split at h
    · simp only [Option.map_eq_some'] at h
      obtain ⟨r, hr, rfl⟩ := h
      rw [repeatList_length, completeLoop_some_length ns _ _ r hr, Nat.mul_comm]
    · cases h
  | m =>
    simp only [runStrategy, mst_strategy, Option.map_eq_some'] at h
    obtain ⟨r, hr, rfl⟩ := h
    rw [repeatList_length, completeLoop_some_length ns _ _ r hr, Nat.mul_comm]
  | r =>
    simp only [runStrategy, random_strategy] at h
    rw [if_neg (by rintro ⟨hit, hlt⟩; omega)] at h
    simp only [Option.some.injEq] at h
    subst h
    have hall : ∀ l ∈ (List.range it).map ext.samples, l.length = ns := by
      intro l hl
      obtain ⟨j, hj, rfl⟩ := List.mem_map.mp hl
      exact (hsam j (List.mem_range.mp hj)).1
    rw [flatten_length_uniform _ ns hall, List.length_map, List.length_range,
      Nat.mul_comm]

/-- Witness for `seedSchedule_length`: the vertex-cover strategy on the
single-edge graph with `k = 1`, `num_iterations = 2`. -/
theorem seedSchedule_length_witness : ([0, 0] : List Nat).length = 1 * 2 :=
  seedSchedule_length .v G2 ext2 2 1 (by decide) (by decide) (by decide)
    (by decide) [0, 0] (by decide)

/-- **C2, counterexample.**  On the one-node graph with `k = 2` the degree
strategy does not fail: it returns the single available node, a list
shorter than `k * num_iterations`.  `heapq.nlargest` silently truncates;
no `InsufficientNodesError` exists anywhere in the code. -/
theorem ranker_no_failure_counterexample :
    runStrategy Tag.d G1 ext1 1 2 = some [0] ∧ ([0] : List Nat).length < 2 :=
  ⟨by decide, by decide⟩

/-- **C2, amended.**  On a graph with fewer than `k` nodes, each
Ranker-based strategy (degree, betweenness, eigenvector, Katz, clustering
coefficient) raises no error and returns the `min(k, n)` highest-ranked
nodes per round, a schedule of length `min(k, n) * num_iterations`. -/
theorem ranker_truncates (t : Tag)
    (ht : t = Tag.d ∨ t = Tag.e ∨ t = Tag.b ∨ t = Tag.k ∨ t = Tag.c)
    (G : Graph) (ext : Ext) (it ns : Nat) (hval : ext.Valid G) :
    ∃ s, runStrategy t G ext it ns = some s ∧
      s.length = (min ns G.nodes.length) * it := by
  obtain ⟨_, _, _, _, heig, hbet, hkatz, hclus⟩ := hval
  have key : ∀ scores : List (Nat × Score), scores.map Prod.fst = G.nodes →
      (rankerSchedule scores it ns).length = (min ns G.nodes.length) * it := by
    intro scores hkeys
    have hlen : scores.length = G.nodes.length := by
      have := congrArg List.length hkeys
      simpa using this
    rw [rankerSchedule_length, hlen, Nat.mul_comm]
  rcases ht with rfl | rfl | rfl | rfl | rfl
  · exact ⟨_, rfl, key _ (degree_centrality_keys G)⟩
  · exact ⟨_, rfl, key _ heig⟩
  · exact ⟨_, rfl, key _ hbet⟩
  · exact ⟨_, rfl, key _ hkatz⟩
  · exact ⟨_, rfl, key _ hclus⟩

/-- Witness for `ranker_truncates`: the degree strategy on the one-node
graph with `k = 2`. -/
theorem ranker_truncates_witness :
    ∃ s, runStrategy Tag.d G1 ext1 1 2 = some s ∧
      s.length = (min 2 G1.nodes.length) * 1 :=
  ranker_truncates Tag.d (Or.inl rfl) G1 ext1 1 2 (by decide)

/-- **C3.**  For every Extractor-based strategy (MST, dominating set,
vertex cover) on a graph with at least `k` nodes, a successful run's round
is the extracted-and-ranked candidate list followed by nodes taken in
descending whole-graph degree-centrality order, skipping any node already
present, until the round holds exactly `k` entries — and the round has no
duplicates. -/
theorem extractor_completion_round (t : Tag)
    (ht : t = Tag.v ∨ t = Tag.s ∨ t = Tag.m)
    (G : Graph) (ext : Ext) (it ns : Nat)
    (hwf : G.WF) (hval : ext.Valid G) (hn : ns ≤ G.nodes.length)
    (s : List Nat) (h : runStrategy t G ext it ns = some s) :
    ∃ r, s = repeatList r it
      ∧ r = extractRanked t G ext ns ++
          ((degree_centrality_strategy G 1 ns).filter
            (fun x => !((extractRanked t G ext ns).contains x))).take
            (ns - (extractRanked t G ext ns).length)
      ∧ r.Nodup ∧ r.length = ns := by
  have hfbN : (degree_centrality_strategy G 1 ns).Nodup := fallback_nodup G ns hwf
  have hpN : (extractRanked t G ext ns).Nodup := extractRanked_nodup t G ext ns hwf
  have hpl : (extractRanked t G ext ns).length ≤ ns := extractRanked_length_le t G ext ns
  obtain ⟨r, hr, rfl⟩ : ∃ r, completeLoop ns (degree_centrality_strategy G 1 ns)
      (extractRanked t G ext ns) = some r ∧ repeatList r it = s := by
    rcases ht with rfl | rfl | rfl
    · simpa [runStrategy, vertex_cover_strategy, extractRanked,
        Option.map_eq_some'] using h
    · simp only [runStrategy, dominating_set_strategy] at h
      split at h
      · simpa [extractRanked, Option.map_eq_some'] using h
      · cases h
    · simpa [runStrategy, mst_strategy, extractRanked,
        Option.map_eq_some'] using h
  exact ⟨r, rfl,
    completeLoop_some_eq ns _ hfbN _ r hpl hr,
    completeLoop_some_nodup ns _ _ r hfbN hpN hpl hr,
    completeLoop_some_length ns _ _ r hr⟩

/-- Witness for `extractor_completion_round`: the vertex-cover strategy on
the path 0—1—2 with cover `{1}` and `k = 2`, whose round pads with node 0. -/
theorem extractor_completion_round_witness :
    ∃ r, ([1, 0] : List Nat) = repeatList r 1
      ∧ r = extractRanked Tag.v P3 extP3 2 ++
          ((degree_centrality_strategy P3 1 2).filter
            (fun x => !((extractRanked Tag.v P3 extP3 2).contains x))).take
            (2 - (extractRanked Tag.v P3 extP3 2).length)
      ∧ r.Nodup ∧ r.length = 2 :=
  extractor_completion_round Tag.v (Or.inl rfl) P3 extP3 1 2 (by decide)
    (by decide) (by decide) [1, 0] (by decide)

/-- **C4.**  The completion step fails (fallback exhausted — the modelled
IndexError) iff the graph has fewer than `k` nodes, even though the
fallback holds only the top `k` whole-graph-degree nodes; and whenever it
succeeds the result has exactly `k` entries. -/
theorem completion_exhausted_iff_small (G : Graph) (p : List Nat) (ns : Nat)
    (hwf : G.WF) (hpN : p.Nodup) (hps : ∀ x ∈ p, x ∈ G.nodes)
    (hpl : p.length ≤ ns) :
    (completeLoop ns (degree_centrality_strategy G 1 ns) p = none
        ↔ G.nodes.length < ns)
    ∧ ∀ r, completeLoop ns (degree_centrality_strategy G 1 ns) p = some r →
        r.length = ns := by
  constructor
  · constructor
    · intro hnone
      by_contra hle
      push_neg at hle
      obtain ⟨r, hr⟩ := extractor_complete_isSome G p ns hwf hpl hle
      rw [hr] at hnone
      cases hnone
    · intro hlt
      apply completeLoop_none
      have hunion : (p ++ (degree_centrality_strategy G 1 ns).filter
          (fun x => !(p.contains x))).Nodup := by
        apply List.Nodup.append hpN
          ((List.filter_sublist _).nodup (fallback_nodup G ns hwf))
        intro a ha hf
        have h1 := List.of_mem_filter hf
        have h2 : a ∉ p := by simpa using h1
        exact h2 ha
      have hsub : ∀ x ∈ p ++ (degree_centrality_strategy G 1 ns).filter
          (fun x => !(p.contains x)), x ∈ G.nodes := by
        intro x hx
        rcases List.mem_append.mp hx with h1 | h2
        · exact hps x h1
        · exact fallback_subset G ns x ((List.filter_sublist _).subset h2)
      have hcard := nodup_subset_length_le _ _ hunion hsub
      simp only [List.length_append] at hcard
      omega
  · intro r h
    exact completeLoop_some_length ns _ _ r h

/-- Witness for `completion_exhausted_iff_small`: the path 0—1—2 with
candidates `[1]` and `k = 2`. -/
theorem completion_exhausted_iff_small_witness :
    ((completeLoop 2 (degree_centrality_strategy P3 1 2) [1] = none
        ↔ P3.nodes.length < 2)
      ∧ ∀ r, completeLoop 2 (degree_centrality_strategy P3 1 2) [1] = some r →
          r.length = 2) :=
  completion_exhausted_iff_small P3 [1] 2 (by decide) (by decide) (by decide)
    (by decide)

/-- Unfolding the neighbour lookup one adjacency entry at a time. -/
theorem nbrs_mk_cons (w : Nat) (nb : List Nat) (rest : List (Nat × List Nat))
    (u : Nat) :
    (Graph.mk ((w, nb) :: rest)).nbrs u =
      if w = u then nb else (Graph.mk rest).nbrs u := by
  by_cases hw : w = u
  · subst hw
    simp [Graph.nbrs, List.find?]
  · have hw2 : ((w, nb).1 == u) = false := by simpa using hw
    simp [Graph.nbrs, List.find?, hw2, hw]

/-- Unfolding the induced subgraph one adjacency entry at a time. -/
theorem induced_mk_cons (S : List Nat) (w : Nat) (nb : List Nat)
    (rest : List (Nat × List Nat)) :
    induced (Graph.mk ((w, nb) :: rest)) S =
      if S.contains w then
        Graph.mk ((w, nb.filter (fun v => S.contains v)) ::
          (induced (Graph.mk rest) S).adj)
      else induced (Graph.mk rest) S := by
  by_cases hs : S.contains w
  · have hsp : w ∈ S := by simpa using hs
    simp [induced, List.filter_cons, hs, hsp]
  · have hsp : w ∉ S := by simpa using hs
    simp [induced, List.filter_cons, hs, hsp]

/-- The neighbour list in the induced subgraph: present only for kept nodes,
and filtered to kept nodes. -/
theorem induced_nbrs (G : Graph) (S : List Nat) (u : Nat) :
    (induced G S).nbrs u =
      if S.contains u then (G.nbrs u).filter (fun v => S.contains v)
      else [] := by
  obtain ⟨adj⟩ := G
  induction adj with
  | nil =>
    by_cases hu : S.contains u <;> simp [induced, Graph.nbrs, List.find?, hu]
  | cons p rest ih =>
    obtain ⟨w, nb⟩ := p
    rw [induced_mk_cons]
    by_cases hs : S.contains w
    · rw [if_pos hs]
      by_cases hw : w = u
      · subst hw
        rw [nbrs_mk_cons _ _ _ w, if_pos rfl, nbrs_mk_cons _ _ _ w, if_pos rfl,
          if_pos hs]
      · rw [nbrs_mk_cons _ _ _ u, if_neg hw, nbrs_mk_cons _ _ _ u, if_neg hw]
        exact ih
    · rw [if_neg hs]
      by_cases hw : w = u
      · subst hw
        rw [ih, if_neg (by simpa using hs), if_neg (by simpa using hs)]
      · rw [nbrs_mk_cons _ _ _ u, if_neg hw]
        exact ih

/-- **C5, counterexample.**  On the four-node graph `G4` the MST strategy
ranks by degree within the spanning tree (the star at 0), picking `[0, 1]`;
ranking the induced subgraph on the tree's node set, as the spec words it,
would pick `[0, 2]`. -/
theorem mst_ranks_tree_not_induced :
    G4.WF ∧
    mst_strategy G4 1 2 = some [0, 1] ∧
    mst_strategy_specInduced G4 1 2 = some [0, 2] ∧
    mst_strategy G4 1 2 ≠ mst_strategy_specInduced G4 1 2 :=
  ⟨by decide, by decide, by decide, by decide⟩

/-- **C5, amended.**  For the vertex-cover and dominating-set strategies
the ranked subgraph `induced G S` carries exactly the extracted nodes and
all original edges between them; the MST strategy ranks the spanning tree
itself (whose node set is all of `G`'s nodes), not the induced subgraph on
that node set. -/
theorem extraction_ranking_amended (G : Graph) (S : List Nat) (u v : Nat) :
    ((induced G S).adjacent u v ↔ G.adjacent u v ∧ u ∈ S ∧ v ∈ S)
    ∧ (mstGraph G).nodes = G.nodes := by
  refine ⟨?_, mstGraph_nodes G⟩
  simp only [Graph.adjacent, induced_nbrs]
  by_cases hu : u ∈ S
  · simp [hu, List.mem_filter, and_comm]
  · simp [hu]

/-- **C6.**  For every deterministic strategy (every tag except the random
one), the SeedSchedule is the per-round seed list repeated verbatim
`num_iterations` times, so all rounds are identical. -/
theorem deterministic_replication (t : Tag) (ht : t ≠ Tag.r) (G : Graph)
    (ext : Ext) (it ns : Nat) (s : List Nat)
    (h : runStrategy t G ext it ns = some s) :
    ∃ r, s = repeatList r it ∧
      ∀ i < it, (s.drop (i * r.length)).take r.length = r := by
  have mk : ∀ r : List Nat, s = repeatList r it →
      ∃ r, s = repeatList r it ∧
        ∀ i < it, (s.drop (i * r.length)).take r.length = r := by
    intro r hs
    refine ⟨r, hs, ?_⟩
    intro i hi
    rw [hs]
    exact repeatList_blocks r it i hi
  cases t with
  | r => exact absurd rfl ht
  | d =>
    simp only [runStrategy, Option.some.injEq] at h
    exact mk _ h.symm
  | e =>
    simp only [runStrategy, eigenvector_centrality_strategy,
      Option.some.injEq] at h
    exact mk _ h.symm
  | b =>
    simp only [runStrategy, betweenness_centrality_strategy,
      Option.some.injEq] at h
    exact mk _ h.symm
  | k =>
    simp only [runStrategy, katz_centrality_strategy, Option.some.injEq] at h
    exact mk _ h.symm
  | c =>
    simp only [runStrategy, clustering_coefficient_strategy,
      Option.some.injEq] at h
    exact mk _ h.symm
  | v =>
    simp only [runStrategy, vertex_cover_strategy, Option.map_eq_some'] at h
    obtain ⟨r, _, hs⟩ := h
    exact mk r hs.symm
  | s =>
    simp only [runStrategy, dominating_set_strategy] at h
    split at h
    · simp only [Option.map_eq_some'] at h
      obtain ⟨r, _, hs⟩ := h
      exact mk r hs.symm
    · cases h
  | m =>
    simp only [runStrategy, mst_strategy, Option.map_eq_some'] at h
    obtain ⟨r, _, hs⟩ := h
    exact mk r hs.symm

/-- Witness for `deterministic_replication`: the degree strategy on the
single-edge graph over two rounds. -/
theorem deterministic_replication_witness :
    ∃ r, ([0, 0] : List Nat) = repeatList r 2 ∧
      ∀ i < 2, (([0, 0] : List Nat).drop (i * r.length)).take r.length = r :=
  deterministic_replication Tag.d (by decide) G2 extEmpty 2 1 [0, 0] (by decide)

/-- **C7.**  For the random strategy on a graph with `n ≥ k` nodes, the run
succeeds, and each round's block of `k` entries is exactly that round's
fresh draw: `k` distinct 0-based node indices below `n`.  Nothing requires
different rounds' draws to be disjoint. -/
theorem random_rounds (G : Graph) (ext : Ext) (it ns : Nat)
    (hn : ns ≤ G.nodes.length)
    (hsam : SamplesOK ext it ns G.nodes.length) :
    ∃ s, runStrategy Tag.r G ext it ns = some s ∧ s.length = ns * it ∧
      ∀ i < it, (s.drop (i * ns)).take ns = ext.samples i ∧
        ((s.drop (i * ns)).take ns).Nodup ∧
        ∀ x ∈ (s.drop (i * ns)).take ns, x < G.nodes.length := by
  have hall : ∀ l ∈ (List.range it).map ext.samples, l.length = ns := by
    intro l hl
    obtain ⟨j, hj, rfl⟩ := List.mem_map.mp hl
    exact (hsam j (List.mem_range.mp hj)).1
  refine ⟨((List.range it).map ext.samples).flatten, ?_, ?_, ?_⟩
  · simp only [runStrategy, random_strategy]
    rw [if_neg (by rintro ⟨hit, hlt⟩; omega)]
  · rw [flatten_length_uniform _ ns hall, List.length_map, List.length_range,
      Nat.mul_comm]
  · intro i hi
    have hblock :=
      flatten_map_blocks ext.samples it ns (fun j hj => (hsam j hj).1) i hi
    refine ⟨hblock, ?_, ?_⟩
    · rw [hblock]
      exact (hsam i hi).2.1
    · rw [hblock]
      exact (hsam i hi).2.2

/-- Witness for `random_rounds`: two rounds on the single-edge graph whose
draws are both `[0]` — valid, and not disjoint across rounds. -/
theorem random_rounds_witness :
    ∃ s, runStrategy Tag.r G2 ext2 2 1 = some s ∧ s.length = 1 * 2 ∧
      ∀ i < 2, (s.drop (i * 1)).take 1 = ext2.samples i ∧
        ((s.drop (i * 1)).take 1).Nodup ∧
        ∀ x ∈ (s.drop (i * 1)).take 1, x < G2.nodes.length :=
  random_rounds G2 ext2 2 1 (by decide) (by decide)

/-- **C8.**  Top-k selection breaks score ties stably by the iteration
order of the score computation, not by node identifier: on the complete
graph `K4S`, whose nodes are listed in the order 2, 0, 3, 1 and whose
degree scores are all tied at 3/3, the degree strategy with `k = 2`,
`num_iterations = 1` returns `[2, 0]` — the first two nodes in iteration
order (an identifier sort would give `[0, 1]`) — a list of length 2 of
valid K4 node identifiers. -/
theorem tie_break_iteration_order :
    degree_centrality K4S =
      [(2, ⟨3, 3⟩), (0, ⟨3, 3⟩), (3, ⟨3, 3⟩), (1, ⟨3, 3⟩)] ∧
    runStrategy Tag.d K4S extEmpty 1 2 = some [2, 0] ∧
    [2, 0] = K4S.nodes.take 2 ∧
    ([2, 0] : List Nat).length = 2 ∧
    ∀ x ∈ ([2, 0] : List Nat), x ∈ K4S.nodes :=
  ⟨by decide, by decide, by decide, by decide, by decide⟩

/-- **C10.**  `dominating_set_strategy` asserts that the dominating set is
a strict subset of the node set (line 162); whenever the dominating set
contains every node — as on any edgeless graph — the strategy fails on
that assertion, for every `k` and iteration count. -/
theorem dominating_assert_strict_subset (G : Graph) (ext : Ext) (it ns : Nat)
    (h : ∀ x ∈ G.nodes, x ∈ ext.ds) :
    runStrategy Tag.s G ext it ns = none := by
  have hfil : (induced G ext.ds).nodes = G.nodes := by
    rw [induced_nodes]
    apply List.filter_eq_self.mpr
    intro a ha
    simpa using h a ha
  simp only [runStrategy, dominating_set_strategy, hfil]
  rw [if_neg (lt_irrefl _)]

/-- Witness for `dominating_assert_strict_subset`: the two-node edgeless
graph, whose greedy dominating set is both nodes, with `k = 1 ≤ n`. -/
theorem dominating_assert_strict_subset_witness :
    1 ≤ Gless.nodes.length ∧ runStrategy Tag.s Gless extLess 1 1 = none :=
  ⟨by decide, dominating_assert_strict_subset Gless extLess 1 1 (by decide)⟩

end Pandemaniac
